import Mathlib

/-!
Shallow embedding of the release-decision engine of `fuale/version`
(`src/main.rs`): semantic-version tag ranking, the bump-level scan,
version bumping, conventional-commit classification and changelog
rendering.  Strings are modelled by Lean `String` / `List Char`; `usize`
by `Nat` (the spec declares version components unbounded non-negative
integers); the `regex` crate's leftmost-first matching is modelled by
explicit scanning functions.  Unicode character classes (`\pP \pN \pL \s`)
are modelled exactly on the ASCII range, which is where every literal the
program matches against lives.
-/

namespace Version

/-- Rust `str::starts_with`: the pattern's characters are a prefix of the
subject's characters. -/
def startsWith (s p : String) : Bool :=
  p.data.isPrefixOf s.data

/-- The set of characters removed by Rust `str::trim` (ASCII part of
Unicode `White_Space`). -/
def isWsChar (c : Char) : Bool :=
  c.toNat == 9 || c.toNat == 10 || c.toNat == 11 || c.toNat == 12 ||
  c.toNat == 13 || c.toNat == 32

/-- Rust `str::trim` on the character list. -/
def trimChars (s : List Char) : List Char :=
  (((s.dropWhile isWsChar).reverse).dropWhile isWsChar).reverse

/-- Rust `str::trim` as a `String` function. -/
def trimS (s : String) : String :=
  ⟨trimChars s.data⟩

/-! ### Bump bitmask constants (`main.rs` lines 19-21) -/

def PATCH_BUMP : Nat := 1 <<< 1

def MINOR_BUMP : Nat := 1 <<< 2

def MAJOR_BUMP : Nat := 1 <<< 3

/-- `main.rs` lines 644-654: `bump` renders the next version string from
the bitmask and the base triple, and the empty string when no bit is set.
`format!("v{}.{}.{}", a, b, c)` is embedded as concatenation with
`Nat.repr`. -/
def bump (version : Nat) (major minor patch : Nat) : String :=
  if MAJOR_BUMP &&& version == MAJOR_BUMP then
    "v" ++ Nat.repr (major + 1) ++ "." ++ Nat.repr 0 ++ "." ++ Nat.repr 0
  else if MINOR_BUMP &&& version == MINOR_BUMP then
    "v" ++ Nat.repr major ++ "." ++ Nat.repr (minor + 1) ++ "." ++ Nat.repr 0
  else if PATCH_BUMP &&& version == PATCH_BUMP then
    "v" ++ Nat.repr major ++ "." ++ Nat.repr minor ++ "." ++ Nat.repr (patch + 1)
  else
    ""

/-- `main.rs` lines 132-151: the bump-selection scan.  `bumps` starts at 0
(commit list nonempty path); every branch `break`s, so the result is the
level of the first commit whose subject passes any prefix test. -/
def selectBump : List (String × String) → Nat
  | [] => 0
  | (_, commit) :: rest =>
    if startsWith commit "fix!" || startsWith commit "feat!" then
      MAJOR_BUMP
    else if startsWith commit "feat" then
      MINOR_BUMP
    else if startsWith commit "chore" || startsWith commit "fix" ||
            startsWith commit "docs" || startsWith commit "refactor" then
      PATCH_BUMP
    else
      selectBump rest

/-- `main.rs` lines 153-154 and 266: in the run where the commit range is
nonempty, the tag name handed to the tag-creation call is
`bump(bumps, latest.0, latest.1, latest.2)` with no further check. -/
def releaseTagName (commits : List (String × String)) (base : Nat × Nat × Nat) : String :=
  bump (selectBump commits) base.1 base.2.1 base.2.2

/-! ### Semantic-version extraction (`SEMVER_RX`, `semver`)

`SEMVER_RX = (?P<major>0|[1-9]\d*)\.(?P<minor>0|[1-9]\d*)\.(?P<patch>0|[1-9]\d*)`
is *unanchored*; `Regex::captures` returns the leftmost match.  At a fixed
start position the pattern is deterministic: an alternation branch `0`
matches a literal `0`, the branch `[1-9]\d*` greedily takes a maximal
digit run, and shrinking the run can never make the following `\.`
match (the abandoned character is a digit), so backtracking never changes
the outcome. -/

/-- One `0|[1-9]\d*` component at a fixed position: the numeric value and
the remaining characters. -/
def parseComp : List Char → Option (Nat × List Char)
  | [] => none
  | c :: cs =>
    if c = '0' then
      some (0, cs)
    else if c.isDigit then
      some (((c :: cs.takeWhile Char.isDigit).foldl
              (fun a d => a * 10 + (d.toNat - 48)) 0),
            cs.dropWhile Char.isDigit)
    else
      none

/-- The whole pattern `major\.minor\.patch` at a fixed start position. -/
def matchAt (s : List Char) : Option (Nat × Nat × Nat) :=
  match parseComp s with
  | none => none
  | some (major, r1) =>
    match r1 with
    | '.' :: r2 =>
      match parseComp r2 with
      | none => none
      | some (minor, r3) =>
        match r3 with
        | '.' :: r4 =>
          match parseComp r4 with
          | none => none
          | some (patch, _) => some (major, minor, patch)
        | _ => none
    | _ => none

/-- Leftmost match: try every start position from the left. -/
def findSemver : List Char → Option (Nat × Nat × Nat)
  | [] => none
  | c :: rest =>
    match matchAt (c :: rest) with
    | some v => some v
    | none => findSemver rest

/-- Version extraction from a tag name (`re.captures(tag)` plus the three
`parse::<usize>().unwrap()` calls). -/
def parseVersion (tag : String) : Option (Nat × Nat × Nat) :=
  findSemver tag.data

/-- Rust `Ord` on the `(usize, usize, usize)` triple: lexicographic. -/
def verCmp (a b : Nat × Nat × Nat) : Ordering :=
  (compare a.1 b.1).then ((compare a.2.1 b.2.1).then (compare a.2.2 b.2.2))

/-- The order used by `versions.sort_by(|a, b| b.1.cmp(&a.1))`: `a`
may come before `b` exactly when the comparator does not say `Greater`. -/
def semverLe (a b : String × (Nat × Nat × Nat)) : Bool :=
  !(verCmp b.2 a.2 == Ordering.gt)

/-- `main.rs` lines 506-526: collect `(tag, triple)` for each tag the
pattern matches, stable-sort by version descending, keep at most two.
The `BTreeSet` input is modelled by the list of its elements in iteration
(ascending) order; the claims that need that order assume it. -/
def semver (tags : List String) : List (String × (Nat × Nat × Nat)) :=
  ((tags.filterMap fun t => (parseVersion t).map fun v => (t, v)).insertionSort
      fun a b => semverLe a b = true).take 2

/-! ### Changelog sorting (`sort_commits`, lines 528-544) -/

/-- The fixed priority table of `sort_commits`. -/
def sortOrder : List String :=
  ["feat!", "feat", "fix!", "fix", "refactor", "docs", "chore"]

/-- `order.iter().position(|&p| a.starts_with(p)).unwrap_or(order.len())`:
index of the first matching entry, 7 when none matches. -/
def sortKey (s : String) : Nat :=
  sortOrder.findIdx fun p => startsWith s p

/-- The comparator `prefix_a.cmp(&prefix_b)` read as a `≤` test. -/
def commitLe (a b : String × String) : Bool :=
  decide (sortKey a.2 ≤ sortKey b.2)

/-- `sort_commits`: Rust `sort_by` is a stable sort; a stable sort with
this comparator is insertion sort that inserts each element before the
first element it is `≤` to. -/
def sort_commits (l : List (String × String)) : List (String × String) :=
  l.insertionSort fun a b => commitLe a b = true

/-! ### Conventional-commit classification (`CONVENTIONAL_COMMIT_RX`)

`^(?P<type>fix|feat|docs|refactor|chore|revert|docs|chore)!?`
`(?:\((?P<note>[\pP\pN\pL\s]+)\))?:(?P<subject>.+)$`

The note class is punctuation / number / letter / whitespace, modelled
exactly on ASCII (codepoints below 128; larger codepoints do not occur in
any string the claims touch).  `)` and `:` themselves belong to the
class, so the greedy `+` has to backtrack to the *last* `)` inside the
class run that is followed by `:` and a nonempty newline-free subject. -/

/-- ASCII part of `[\pP\pN\pL\s]`: whitespace, letters, digits, and the
ASCII punctuation codepoints (the symbol characters `$ + < = > ^ \x60 | ~`
are in `\pS`, not `\pP`, and are excluded). -/
def inNoteClass (c : Char) : Bool :=
  let n := c.toNat
  (n == 9 || n == 10 || n == 11 || n == 12 || n == 13 || n == 32) ||
  (65 ≤ n && n ≤ 90) || (97 ≤ n && n ≤ 122) ||
  (48 ≤ n && n ≤ 57) ||
  [33, 34, 35, 37, 38, 39, 40, 41, 42, 44, 45, 46, 47, 58, 59, 63, 64,
    91, 92, 93, 95, 123, 125].contains n

/-- `(?P<subject>.+)$`: `.`, which excludes newline, must cover the whole
remainder, and `+` wants at least one character. -/
def subjectOk (s : List Char) : Bool :=
  !s.isEmpty && s.all (· ≠ '\n')

/-- Greedy search for the note split: try the longest candidate note
first; a candidate of length `k` requires `)` then `:` after it and a
valid subject.  `r` is the text right after the opening `(`. -/
def tryNote (r : List Char) : Nat → Option (List Char × List Char)
  | 0 => none
  | Nat.succ k =>
    match r.drop (k + 1) with
    | ')' :: ':' :: s =>
      if subjectOk s then some (r.take (k + 1), s) else tryNote r k
    | _ => tryNote r k

/-- `(?:\((?P<note>[\pP\pN\pL\s]+)\))?:(?P<subject>.+)$` after the type
and optional `!`.  When the next character is `(` the optional group must
match (skipping it leaves `(` facing the required `:`). -/
def matchTail : List Char → Option (Option (List Char) × List Char)
  | '(' :: r =>
    match tryNote r (r.takeWhile inNoteClass).length with
    | some (note, subj) => some (some note, subj)
    | none => none
  | ':' :: s => if subjectOk s then some (none, s) else none
  | _ => none

/-- Strip a literal pattern from the front of the text. -/
def dropLit : List Char → List Char → Option (List Char)
  | [], s => some s
  | _ :: _, [] => none
  | a :: p, b :: s => if a = b then dropLit p s else none

/-- A parsed conventional commit: captured type, optional note, subject. -/
structure Classified where
  type : String
  note : Option String
  subject : String
deriving DecidableEq

/-- The alternation branches of the type group, in pattern order
(the duplicated `docs` and `chore` are kept as written). -/
def ccTypes : List String :=
  ["fix", "feat", "docs", "refactor", "chore", "revert", "docs", "chore"]

/-- `!?` then the tail: greedily consume a leading `!`, falling back to
not consuming it when the rest of the pattern fails. -/
def bangTail (r0 : List Char) : Option (Option (List Char) × List Char) :=
  match r0 with
  | '!' :: r1 =>
    match matchTail r1 with
    | some v => some v
    | none => matchTail r0
  | _ => matchTail r0

/-- Leftmost-first alternation with backtracking: try each type branch in
order. -/
def classifyWith : List String → List Char → Option Classified
  | [], _ => none
  | t :: ts, s =>
    match dropLit t.data s with
    | some r0 =>
      match bangTail r0 with
      | some (note, subj) => some ⟨t, note.map fun n => ⟨n⟩, ⟨subj⟩⟩
      | none => classifyWith ts s
    | none => classifyWith ts s

/-- `CONVENTIONAL_COMMIT_RX` applied (anchored) to a commit subject. -/
def classify (s : String) : Option Classified :=
  classifyWith ccTypes s.data

/-- The `type_replacements` table of `make_changelog`. -/
def typeHeading (t : String) : Option String :=
  if t == "feat" then some "Features"
  else if t == "fix" then some "Bug Fixes"
  else if t == "docs" then some "Documentation"
  else if t == "refactor" then some "Code Refactoring"
  else if t == "chore" then some "Chores"
  else if t == "revert" then some "Reverts"
  else none

/-- A commit subject the renderer suppresses: classified with type
`chore` and note exactly `release`. -/
def isChoreRelease (s : String) : Bool :=
  match classify s with
  | some c => c.type == "chore" && c.note == some "release"
  | none => false

/-- The body of the `for (hash, commit) in sorted_commits` loop of
`make_changelog`, one step of the fold over `(last_type, result)`. -/
def renderStep (st : String × String) (c : String × String) : String × String :=
  match classify c.2 with
  | none => st
  | some caps =>
    if (match caps.note with
        | some n => caps.type == "chore" && n == "release"
        | none => false) then st
    else
      let res0 := if caps.type ≠ st.1 ∧ st.1 ≠ "" then st.2 ++ "\n" else st.2
      let entry := fun res : String =>
        let res := res ++ "- "
        let res :=
          match caps.note with
          | some n => res ++ "**" ++ n ++ ":** "
          | none => res
        res ++ trimS caps.subject ++ " (" ++ c.1 ++ ")" ++ "\n"
      if caps.type ≠ st.1 then
        (caps.type,
         entry (match typeHeading caps.type with
                | some h => res0 ++ "### " ++ h ++ "\n"
                | none => res0))
      else
        (st.1, entry res0)

/-- `main.rs` lines 548-602: sort a copy of the commit list, then render
each classified commit, grouping consecutive equal types. -/
def make_changelog (commits : List (String × String)) : String :=
  ((sort_commits commits).foldl renderStep ("", "")).2

/-! ### Derived specification-side definitions used in theorem statements -/

/-- Strict lexicographic order on version triples (the order induced by
the derived `Ord` on Rust's `(usize, usize, usize)`). -/
def VerLt (a b : Nat × Nat × Nat) : Prop :=
  a.1 < b.1 ∨ (a.1 = b.1 ∧ (a.2.1 < b.2.1 ∨ (a.2.1 = b.2.1 ∧ a.2.2 < b.2.2)))

/-- A subject passes at least one prefix test of the bump scan. -/
def matchesRule (s : String) : Bool :=
  (startsWith s "fix!" || startsWith s "feat!") || startsWith s "feat" ||
  (startsWith s "chore" || startsWith s "fix" ||
   startsWith s "docs" || startsWith s "refactor")

/-- The level the scan of `main.rs` lines 132-151 assigns to one subject
(the branch structure of the loop body). -/
def ruleLevel (s : String) : Nat :=
  if startsWith s "fix!" || startsWith s "feat!" then MAJOR_BUMP
  else if startsWith s "feat" then MINOR_BUMP
  else if startsWith s "chore" || startsWith s "fix" ||
          startsWith s "docs" || startsWith s "refactor" then PATCH_BUMP
  else 0

/-! ## Lemmas: stable insertion sort -/

/-- Inserting an element that is `r`-below every member goes to the front. -/
theorem orderedInsert_eq_cons {α : Type} {r : α → α → Prop} [DecidableRel r]
    {a : α} {l : List α} (h : ∀ x ∈ l, r a x) :
    List.orderedInsert r a l = a :: l := by
  cases l with
  | nil => rfl
  | cons b m => simp [List.orderedInsert, h b (by simp)]

/-- Filtering commutes with insertion into a sorted list. -/
theorem filter_orderedInsert {α : Type} {r : α → α → Prop} [DecidableRel r]
    (trans : ∀ x y z, r x y → r y z → r x z) (p : α → Bool) (a : α) :
    ∀ m : List α, m.Pairwise r →
      (List.orderedInsert r a m).filter p =
        if p a then List.orderedInsert r a (m.filter p) else m.filter p := by
  intro m
  induction m with
  | nil =>
    intro _
    simp only [List.orderedInsert, List.filter]
    cases hpa : p a <;> simp [hpa]
  | cons b m ih =>
    intro hs
    have hsm : m.Pairwise r := hs.of_cons
    by_cases hab : r a b
    · simp only [List.orderedInsert, if_pos hab]
      cases hpa : p a
      · simp [List.filter, hpa]
      · cases hpb : p b
        · have hbm : ∀ x ∈ m, r b x := fun x hx => List.rel_of_pairwise_cons hs hx
          have : ∀ x ∈ m.filter p, r a x := by
            intro x hx
            exact trans a b x hab (hbm x (List.mem_of_mem_filter hx))
          simp [List.filter, hpa, hpb, orderedInsert_eq_cons this]
        · simp [List.filter, hpa, hpb, List.orderedInsert, hab]
    · simp only [List.orderedInsert, if_neg hab]
      cases hpa : p a
      · cases hpb : p b <;>
          simpa [List.filter, hpa, hpb] using ih hsm
      · cases hpb : p b
        · simpa [List.filter, hpa, hpb] using ih hsm
        · simp only [List.filter, hpb, List.orderedInsert, if_neg hab]
          simpa [List.filter, hpa, hpb] using ih hsm

/-- Filtering commutes with the stable insertion sort. -/
theorem filter_insertionSort {α : Type} {r : α → α → Prop} [DecidableRel r]
    (total : ∀ x y, r x y ∨ r y x) (trans : ∀ x y z, r x y → r y z → r x z)
    (p : α → Bool) :
    ∀ l : List α, (l.insertionSort r).filter p = (l.filter p).insertionSort r := by
  haveI : IsTotal α r := ⟨total⟩
  haveI : IsTrans α r := ⟨trans⟩
  intro l
  induction l with
  | nil => rfl
  | cons a l ih =>
    have hs : (l.insertionSort r).Pairwise r := List.sorted_insertionSort r l
    cases hpa : p a
    · simpa [List.insertionSort, List.filter, hpa, ih] using
        filter_orderedInsert trans p a (l.insertionSort r) hs
    · simpa [List.insertionSort, List.filter, hpa, ih] using
        filter_orderedInsert trans p a (l.insertionSort r) hs

/-- `orderedInsert` preserves a pairwise relation, provided the inserted
element relates forward to everything and relates backward from every
element it skips. -/
theorem pairwise_orderedInsert {α : Type} {r : α → α → Prop} [DecidableRel r]
    {R : α → α → Prop} {a : α} :
    ∀ {m : List α}, (∀ b ∈ m, ¬r a b → R b a) → (∀ b ∈ m, R a b) →
      m.Pairwise R → (List.orderedInsert r a m).Pairwise R := by
  intro m
  induction m with
  | nil => intro _ _ _; simp
  | cons b m ih =>
    intro hskip hfwd hp
    by_cases hab : r a b
    · simp only [List.orderedInsert, if_pos hab]
      exact List.Pairwise.cons hfwd hp
    · simp only [List.orderedInsert, if_neg hab]
      refine List.Pairwise.cons ?_ ?_
      · intro y hy
        rcases (List.mem_orderedInsert r).1 hy with h | h
        · exact h ▸ hskip b (by simp) hab
        · exact List.rel_of_pairwise_cons hp h
      · exact ih (fun x hx => hskip x (by simp [hx])) (fun x hx => hfwd x (by simp [hx]))
          hp.of_cons

/-- The sort preserves a pairwise relation `R` when failing the
comparator forces `R` backward. -/
theorem pairwise_insertionSort {α : Type} {r : α → α → Prop} [DecidableRel r]
    {R : α → α → Prop} (hcompat : ∀ x y, ¬r x y → R y x) :
    ∀ {l : List α}, l.Pairwise R → (l.insertionSort r).Pairwise R := by
  intro l
  induction l with
  | nil => intro _; simp
  | cons a l ih =>
    intro hp
    simp only [List.insertionSort]
    refine pairwise_orderedInsert (fun b _ hb => hcompat a b hb) ?_ (ih hp.of_cons)
    intro b hb
    exact List.rel_of_pairwise_cons hp ((List.mem_insertionSort r).1 hb)

/-! ## Lemmas: the version order -/

theorem verCmp_eq_gt {a b : Nat × Nat × Nat} : verCmp a b = .gt ↔ VerLt b a := by
  obtain ⟨a1, a2, a3⟩ := a
  obtain ⟨b1, b2, b3⟩ := b
  simp only [verCmp, VerLt]
  rcases Nat.lt_trichotomy a1 b1 with h1 | h1 | h1
  · rw [Nat.compare_eq_lt.2 h1]
    simp [Ordering.then]
    omega
  · rw [Nat.compare_eq_eq.2 h1]
    rcases Nat.lt_trichotomy a2 b2 with h2 | h2 | h2
    · rw [Nat.compare_eq_lt.2 h2]
      simp [Ordering.then]
      omega
    · rw [Nat.compare_eq_eq.2 h2]
      rcases Nat.lt_trichotomy a3 b3 with h3 | h3 | h3
      · rw [Nat.compare_eq_lt.2 h3]
        simp [Ordering.then]
        omega
      · rw [Nat.compare_eq_eq.2 h3]
        simp [Ordering.then]
        omega
      · rw [Nat.compare_eq_gt.2 h3]
        simp [Ordering.then]
        omega
    · rw [Nat.compare_eq_gt.2 h2]
      simp [Ordering.then]
      omega
  · rw [Nat.compare_eq_gt.2 h1]
    simp [Ordering.then]
    omega

theorem semverLe_iff {a b : String × (Nat × Nat × Nat)} :
    semverLe a b = true ↔ ¬VerLt a.2 b.2 := by
  have hv : VerLt a.2 b.2 ↔ verCmp b.2 a.2 = Ordering.gt := verCmp_eq_gt.symm
  rw [hv]
  simp only [semverLe]
  cases h : verCmp b.2 a.2 <;> decide

theorem verLt_total (a b : Nat × Nat × Nat) : ¬VerLt a b ∨ ¬VerLt b a := by
  obtain ⟨a1, a2, a3⟩ := a
  obtain ⟨b1, b2, b3⟩ := b
  simp only [VerLt]
  omega

theorem verLt_of_not_of_not {a b c : Nat × Nat × Nat}
    (h1 : ¬VerLt a b) (h2 : ¬VerLt b c) : ¬VerLt a c := by
  obtain ⟨a1, a2, a3⟩ := a
  obtain ⟨b1, b2, b3⟩ := b
  obtain ⟨c1, c2, c3⟩ := c
  simp only [VerLt] at *
  omega

theorem verLt_cases {a b : Nat × Nat × Nat} (h : ¬VerLt a b) :
    b = a ∨ VerLt b a := by
  obtain ⟨a1, a2, a3⟩ := a
  obtain ⟨b1, b2, b3⟩ := b
  simp only [VerLt, Prod.mk.injEq] at *
  omega

theorem semverLe_total (a b : String × (Nat × Nat × Nat)) :
    semverLe a b = true ∨ semverLe b a = true := by
  rw [semverLe_iff, semverLe_iff]
  exact verLt_total a.2 b.2

theorem semverLe_trans (a b c : String × (Nat × Nat × Nat))
    (h1 : semverLe a b = true) (h2 : semverLe b c = true) : semverLe a c = true := by
  rw [semverLe_iff] at *
  exact verLt_of_not_of_not h1 h2

/-! ## Lemmas: prefixes of subjects -/

theorem startsWith_iff {s p : String} :
    startsWith s p = true ↔ ∃ t, s.data = p.data ++ t := by
  simp only [startsWith, List.isPrefixOf_iff_prefix]
  constructor
  · rintro ⟨t, ht⟩
    exact ⟨t, ht.symm⟩
  · rintro ⟨t, ht⟩
    exact ⟨t, ht.symm⟩

/-- A subject starting with `docs` passes none of the higher-priority
prefix tests of the bump scan. -/
theorem docs_not_major_minor {s : String} (h : startsWith s "docs" = true) :
    startsWith s "fix!" = false ∧ startsWith s "feat!" = false ∧
      startsWith s "feat" = false := by
  obtain ⟨t, ht⟩ := startsWith_iff.1 h
  refine ⟨?_, ?_, ?_⟩ <;> (show List.isPrefixOf _ _ = false) <;> rw [ht] <;> rfl

/-! ## Lemmas: the bump scan -/

theorem selectBump_cons_not {c : String × String} {l : List (String × String)}
    (h : matchesRule c.2 = false) : selectBump (c :: l) = selectBump l := by
  obtain ⟨i, s⟩ := c
  simp only [matchesRule, Bool.or_eq_false_iff] at h
  simp [selectBump, h]

theorem selectBump_cons_match {c : String × String} {l : List (String × String)}
    (h : matchesRule c.2 = true) : selectBump (c :: l) = ruleLevel c.2 := by
  obtain ⟨i, s⟩ := c
  simp only [selectBump, ruleLevel]
  by_cases h1 : (startsWith s "fix!" || startsWith s "feat!") = true
  · simp [h1]
  · by_cases h2 : startsWith s "feat" = true
    · simp [h1, h2]
    · by_cases h3 : (startsWith s "chore" || startsWith s "fix" ||
          startsWith s "docs" || startsWith s "refactor") = true
      · simp [h1, h2, h3]
      · exfalso
        simp only [matchesRule] at h
        simp only [Bool.not_eq_true, Bool.or_eq_false_iff] at h1 h3
        simp only [Bool.not_eq_true] at h2
        simp [h1, h2, h3] at h

/-! ## Lemmas: the semver pipeline -/

theorem not_mem_semver {tags : List String} {t : String}
    (h : parseVersion t = none) : t ∉ (semver tags).map Prod.fst := by
  intro hmem
  obtain ⟨x, hx, hxt⟩ := List.mem_map.1 hmem
  have hx1 : x ∈ tags.filterMap fun u => (parseVersion u).map fun v => (u, v) :=
    (List.mem_insertionSort _).1 (List.mem_of_mem_take hx)
  obtain ⟨u, _, hmap⟩ := List.mem_filterMap.1 hx1
  obtain ⟨v, hv, hxv⟩ := Option.map_eq_some'.1 hmap
  have : u = t := by rw [← hxt, ← hxv]
  rw [this, h] at hv
  exact Option.noConfusion hv

theorem semver_sorted (tags : List String) :
    (semver tags).Pairwise fun a b => b.2 = a.2 ∨ VerLt b.2 a.2 := by
  haveI : IsTotal (String × (Nat × Nat × Nat)) (fun a b => semverLe a b = true) :=
    ⟨semverLe_total⟩
  haveI : IsTrans (String × (Nat × Nat × Nat)) (fun a b => semverLe a b = true) :=
    ⟨semverLe_trans⟩
  have hs := List.sorted_insertionSort (fun a b => semverLe a b = true)
    (tags.filterMap fun u => (parseVersion u).map fun v => (u, v))
  have hp := hs.imp (fun hab => verLt_cases (semverLe_iff.1 hab))
  exact hp.sublist (List.take_sublist 2 _)

theorem pairwise_fst_filterMap {β : Type} {f : String → Option β} :
    ∀ {tags : List String}, tags.Pairwise (fun a b => a < b) →
      (tags.filterMap fun t => (f t).map fun v => (t, v)).Pairwise
        fun x y => x.1 < y.1 := by
  intro tags
  induction tags with
  | nil => intro _; simp
  | cons t ts ih =>
    intro hp
    rw [List.filterMap_cons]
    cases hf : (f t).map fun v => (t, v) with
    | none => exact ih hp.of_cons
    | some x =>
      obtain ⟨v, _, hxv⟩ := Option.map_eq_some'.1 hf
      refine List.Pairwise.cons ?_ (ih hp.of_cons)
      intro y hy
      obtain ⟨u, hu, humap⟩ := List.mem_filterMap.1 hy
      obtain ⟨w, _, hyw⟩ := Option.map_eq_some'.1 humap
      rw [← hxv, ← hyw]
      exact List.rel_of_pairwise_cons hp hu

/-! ## Lemmas: commit sorting -/

theorem commitLe_total (a b : String × String) :
    commitLe a b = true ∨ commitLe b a = true := by
  simp only [commitLe, decide_eq_true_eq]
  exact Nat.le_total _ _

theorem commitLe_trans (a b c : String × String)
    (h1 : commitLe a b = true) (h2 : commitLe b c = true) : commitLe a c = true := by
  simp only [commitLe, decide_eq_true_eq] at *
  exact Nat.le_trans h1 h2

theorem sort_commits_perm (l : List (String × String)) : (sort_commits l).Perm l :=
  List.perm_insertionSort _ l

theorem sort_commits_pairwise_key (l : List (String × String)) :
    (sort_commits l).Pairwise fun a b => sortKey a.2 ≤ sortKey b.2 := by
  haveI : IsTotal (String × String) (fun a b => commitLe a b = true) := ⟨commitLe_total⟩
  haveI : IsTrans (String × String) (fun a b => commitLe a b = true) := ⟨commitLe_trans⟩
  have hs := List.sorted_insertionSort (fun a b => commitLe a b = true) l
  exact hs.imp fun hab => by simpa [commitLe, decide_eq_true_eq] using hab

theorem sort_commits_filter (q : (String × String) → Bool) (l : List (String × String)) :
    (sort_commits l).filter q = sort_commits (l.filter q) :=
  filter_insertionSort commitLe_total commitLe_trans q l

theorem sort_commits_filter_key (l : List (String × String)) (k : Nat) :
    (sort_commits l).filter (fun c => sortKey c.2 == k) =
      l.filter fun c => sortKey c.2 == k := by
  rw [sort_commits_filter]
  apply List.Sorted.insertionSort_eq
  apply List.pairwise_of_forall_mem_list
  intro a ha b hb
  have hak : (sortKey a.2 == k) = true := (List.mem_filter.1 ha).2
  have hbk : (sortKey b.2 == k) = true := (List.mem_filter.1 hb).2
  simp only [beq_iff_eq] at hak hbk
  simp [commitLe, hak, hbk]

theorem sortKey_le_seven (s : String) : sortKey s ≤ 7 :=
  List.findIdx_le_length _

theorem sortKey_eq_seven_iff (s : String) :
    sortKey s = 7 ↔ ∀ p ∈ sortOrder, startsWith s p = false :=
  List.findIdx_eq_length

theorem sortKey_revert {s : String} (h : startsWith s "revert" = true) :
    sortKey s = 7 := by
  obtain ⟨t, ht⟩ := startsWith_iff.1 h
  rw [sortKey_eq_seven_iff]
  intro p hp
  simp only [sortOrder, List.mem_cons, List.not_mem_nil, or_false] at hp
  rcases hp with rfl | rfl | rfl | rfl | rfl | rfl | rfl <;>
    (show List.isPrefixOf _ _ = false) <;> rw [ht] <;> rfl

/-! ## Lemmas: changelog rendering -/

theorem renderStep_skip {st : String × String} {c : String × String}
    (h : isChoreRelease c.2 = true) : renderStep st c = st := by
  unfold isChoreRelease at h
  cases hc : classify c.2 with
  | none => rw [hc] at h; exact absurd h (by simp)
  | some caps =>
    rw [hc] at h
    simp only [Bool.and_eq_true, beq_iff_eq] at h
    simp [renderStep, hc, h.1, h.2]

theorem foldl_filter_id {α β : Type} (f : β → α → β) (q : α → Bool)
    (h : ∀ st c, q c = false → f st c = st) :
    ∀ (l : List α) (st : β), (l.filter q).foldl f st = l.foldl f st := by
  intro l
  induction l with
  | nil => intro st; rfl
  | cons a l ih =>
    intro st
    cases hq : q a
    · rw [List.filter_cons_of_neg (by simp [hq]), List.foldl_cons, h st a hq]
      exact ih st
    · rw [List.filter_cons_of_pos hq, List.foldl_cons, List.foldl_cons]
      exact ih (f st a)

theorem classify_revert {s : String} {c : Classified}
    (hpre : startsWith s "revert" = true) (hc : classify s = some c) :
    c.type = "revert" := by
  obtain ⟨t, ht⟩ := startsWith_iff.1 hpre
  have e1 : dropLit "fix".data s.data = none := by rw [ht]; rfl
  have e2 : dropLit "feat".data s.data = none := by rw [ht]; rfl
  have e3 : dropLit "docs".data s.data = none := by rw [ht]; rfl
  have e4 : dropLit "refactor".data s.data = none := by rw [ht]; rfl
  have e5 : dropLit "chore".data s.data = none := by rw [ht]; rfl
  have e6 : dropLit "revert".data s.data = some t := by rw [ht]; rfl
  unfold classify at hc
  simp only [ccTypes, classifyWith, e1, e2, e3, e4, e5, e6] at hc
  cases hm : bangTail t with
  | none => rw [hm] at hc; exact absurd hc (by simp)
  | some v =>
    obtain ⟨note, subj⟩ := v
    rw [hm] at hc
    simp only [Option.some.injEq] at hc
    rw [← hc]

/-! ## String-append helpers for the bump format -/

theorem str_append_dot_zero (s : String) : s ++ "." ++ "0" = s ++ ".0" := by
  apply String.ext
  show s.data ++ ['.'] ++ ['0'] = s.data ++ ['.', '0']
  simp

theorem str_append_dot_zero_dot_zero (s : String) :
    s ++ "." ++ "0" ++ "." ++ "0" = s ++ ".0.0" := by
  apply String.ext
  show s.data ++ ['.'] ++ ['0'] ++ ['.'] ++ ['0'] = s.data ++ ['.', '0', '.', '0']
  simp

/-! ## Claim theorems -/

/-- C1, counterexample: the claim's rule list omits `docs`, but the code's
patch branch tests `docs` too, so on `[docs-commit, feat-commit]` the scan
stops at the docs commit with a patch bump instead of reaching the feat
commit for the minor bump the claim predicts. -/
theorem c1_counterexample :
    selectBump [("a", "docs: x"), ("b", "feat: y")] = PATCH_BUMP ∧
      PATCH_BUMP ≠ MINOR_BUMP ∧ PATCH_BUMP ≠ 0 := by
  decide

/-- C1 (amended: the patch rule set is `chore`, `fix`, `docs`,
`refactor`): the scan's result is decided solely by the first commit whose
subject passes any prefix test, with the branch precedence of the loop;
commits after that first match (here the arbitrary `l₂`) never change the
result. -/
theorem c1_first_match (l₁ : List (String × String)) (c : String × String)
    (l₂ : List (String × String)) (h₁ : ∀ x ∈ l₁, matchesRule x.2 = false)
    (h₂ : matchesRule c.2 = true) :
    selectBump (l₁ ++ c :: l₂) = ruleLevel c.2 := by
  induction l₁ with
  | nil => simpa using selectBump_cons_match h₂
  | cons d l₁ ih =>
    rw [List.cons_append, selectBump_cons_not (h₁ d (by simp))]
    exact ih fun x hx => h₁ x (by simp [hx])

theorem c1_witness :
    selectBump [("a", "wip stuff"), ("b", "feat: y"), ("c", "fix!: z")] = MINOR_BUMP := by
  have h := c1_first_match [("a", "wip stuff")] ("b", "feat: y") [("c", "fix!: z")]
    (by decide) (by decide)
  exact h.trans (by decide)

/-- C2, counterexample: a docs-only commit list does trigger a bump — the
patch branch of the scan tests `docs`. -/
theorem c2_counterexample :
    selectBump [("a", "docs: update readme")] = PATCH_BUMP ∧ PATCH_BUMP ≠ 0 := by
  decide

/-- C2 (amended: a subject starting with `docs` yields a patch bump, so a
nonempty docs-only commit list decides the patch level, not no bump). -/
theorem c2_docs_patch (l : List (String × String)) (hne : l ≠ [])
    (h : ∀ x ∈ l, startsWith x.2 "docs" = true) : selectBump l = PATCH_BUMP := by
  cases l with
  | nil => exact absurd rfl hne
  | cons c rest =>
    obtain ⟨i, s⟩ := c
    have hd : startsWith s "docs" = true := h (i, s) (by simp)
    obtain ⟨hf1, hf2, hf3⟩ := docs_not_major_minor hd
    simp [selectBump, hf1, hf2, hf3, hd]

theorem c2_witness : selectBump [("a", "docs: x")] = PATCH_BUMP :=
  c2_docs_patch [("a", "docs: x")] (by decide) (by decide)

/-- C3: `bump` renders `v{major+1}.0.0` for major, `v{major}.{minor+1}.0`
for minor and `v{major}.{minor}.{patch+1}` for patch, for every base
triple, and the six concrete examples of the spec hold. -/
theorem c3_bump_formulas :
    (∀ M m p : Nat,
      bump MAJOR_BUMP M m p = "v" ++ Nat.repr (M + 1) ++ ".0.0" ∧
      bump MINOR_BUMP M m p = "v" ++ Nat.repr M ++ "." ++ Nat.repr (m + 1) ++ ".0" ∧
      bump PATCH_BUMP M m p =
        "v" ++ Nat.repr M ++ "." ++ Nat.repr m ++ "." ++ Nat.repr (p + 1)) ∧
    bump PATCH_BUMP 1 0 0 = "v1.0.1" ∧ bump MINOR_BUMP 1 0 0 = "v1.1.0" ∧
    bump MAJOR_BUMP 1 0 0 = "v2.0.0" ∧ bump PATCH_BUMP 1 0 99 = "v1.0.100" ∧
    bump MINOR_BUMP 1 99 1 = "v1.100.0" ∧ bump MAJOR_BUMP 99 99 99 = "v100.0.0" := by
  refine ⟨fun M m p => ⟨?_, ?_, ?_⟩,
    by decide, by decide, by decide, by decide, by decide, by decide⟩
  · show "v" ++ Nat.repr (M + 1) ++ "." ++ Nat.repr 0 ++ "." ++ Nat.repr 0 = _
    rw [show Nat.repr 0 = "0" from rfl]
    exact str_append_dot_zero_dot_zero _
  · show "v" ++ Nat.repr M ++ "." ++ Nat.repr (m + 1) ++ "." ++ Nat.repr 0 = _
    rw [show Nat.repr 0 = "0" from rfl]
    exact str_append_dot_zero _
  · rfl

/-- C4: the tag ranker returns at most two pairs, sorted by version
descending in the lexicographic triple order, and no tag the pattern
fails on appears in the result. -/
theorem c4_rank (tags : List String) :
    (semver tags).length ≤ 2 ∧
    ((semver tags).Pairwise fun a b => b.2 = a.2 ∨ VerLt b.2 a.2) ∧
    ∀ t, parseVersion t = none → t ∉ (semver tags).map Prod.fst :=
  ⟨List.length_take_le 2 _, semver_sorted tags, fun _ h => not_mem_semver h⟩

theorem c4_rank_witness :
    parseVersion "nope" = none ∧ "nope" ∉ (semver ["v1.2.3", "nope"]).map Prod.fst :=
  ⟨by decide, (c4_rank ["v1.2.3", "nope"]).2.2 "nope" (by decide)⟩

/-- C5: `sort_commits` permutes its input, orders it by the priority key
(position of the first matching prefix in
`feat!, feat, fix!, fix, refactor, docs, chore`, 7 when none matches, so
unrecognized subjects land after all recognized ones), keeps the relative
input order inside every equal-key class, and the key is 7 exactly when
no prefix of the table matches. -/
theorem c5_stable_sort (l : List (String × String)) :
    (sort_commits l).Perm l ∧
    ((sort_commits l).Pairwise fun a b => sortKey a.2 ≤ sortKey b.2) ∧
    (∀ k, (sort_commits l).filter (fun c => sortKey c.2 == k) =
      l.filter fun c => sortKey c.2 == k) ∧
    ∀ s, sortKey s = 7 ↔ ∀ p ∈ sortOrder, startsWith s p = false :=
  ⟨sort_commits_perm l, sort_commits_pairwise_key l, sort_commits_filter_key l,
    sortKey_eq_seven_iff⟩

theorem c5_stable_sort_witness :
    (sort_commits [("a", "chore: x"), ("b", "feat: y")]).filter
        (fun c => sortKey c.2 == 1) = [("b", "feat: y")] ∧
      sortKey "wip stuff" = 7 := by
  have h := c5_stable_sort [("a", "chore: x"), ("b", "feat: y")]
  exact ⟨(h.2.2.1 1).trans (by decide), (h.2.2.2 "wip stuff").2 (by decide)⟩

/-- C6: `chore(release)` commits contribute nothing to the changelog:
removing every commit classified with type `chore` and note `release`
from the input leaves the rendered output unchanged, wherever they occur;
and the spec's example subject is such a commit. -/
theorem c6_chore_release_suppressed :
    isChoreRelease "chore(release): v1.2.3" = true ∧
    ∀ l : List (String × String),
      make_changelog (l.filter fun c => !isChoreRelease c.2) = make_changelog l := by
  refine ⟨by decide, fun l => ?_⟩
  have hid : ∀ (st : String × String) (c : String × String),
      (!isChoreRelease c.2) = false → renderStep st c = st := fun st c hq =>
    renderStep_skip (by simpa using hq)
  unfold make_changelog
  rw [← sort_commits_filter, foldl_filter_id renderStep _ hid]

/-- C7: with no bump bit set, `bump` returns the empty string; on a
nonempty commit range whose subjects match no rule, the scan yields 0 and
the name the program hands to the tag-creation call is that empty string
— the caller does not intercept it. -/
theorem c7_empty_tag_handed :
    (∀ M m p : Nat, bump 0 M m p = "") ∧
    selectBump [("aaaaaaaaaa", "wip stuff")] = 0 ∧
    releaseTagName [("aaaaaaaaaa", "wip stuff")] (1, 2, 3) = "" :=
  ⟨fun _ _ _ => rfl, by decide, by decide⟩

/-- C8, counterexample: the claim says `v01.2.3` is dropped, but the
pattern is unanchored, so the ranker extracts `(1,2,3)` from the match
starting after the leading zero and keeps the tag. -/
theorem c8_counterexample :
    "v01.2.3" ∈ (semver ["v01.2.3"]).map Prod.fst := by
  decide

/-- C8 (amended: extraction searches the tag for the leftmost position
matching `major.minor.patch` with `0`-or-no-leading-zero components; the
leading-zero grammar is enforced only per position, so `v01.2.3` is
ranked as `(1,2,3)` via the interior match; a tag is dropped exactly when
no position matches). -/
theorem c8_unanchored :
    matchAt "01.2.3".data = none ∧
    parseVersion "v01.2.3" = some (1, 2, 3) ∧
    semver ["v01.2.3"] = [("v01.2.3", (1, 2, 3))] ∧
    ∀ (tags : List String) (t : String), parseVersion t = none →
      t ∉ (semver tags).map Prod.fst :=
  ⟨by decide, by decide, by decide, fun _ _ h => not_mem_semver h⟩

theorem c8_witness :
    parseVersion "zzz" = none ∧ "zzz" ∉ (semver ["v1.2.3", "zzz"]).map Prod.fst :=
  ⟨by decide, c8_unanchored.2.2.2 ["v1.2.3", "zzz"] "zzz" (by decide)⟩

/-- C9: on a tag set iterated in ascending name order (how the `BTreeSet`
yields it), two entries of the ranker's output with the same version
triple appear in ascending lexicographic tag-name order — the version
comparator ties them and the stable sort keeps the set order — so the
output is deterministic for identical input sets. -/
theorem c9_ties_deterministic (tags : List String)
    (hsorted : tags.Pairwise fun a b => a < b) :
    (semver tags).Pairwise fun a b => a.2 = b.2 → a.1 < b.1 := by
  have hfst := pairwise_fst_filterMap (f := parseVersion) hsorted
  have hR : (tags.filterMap fun t => (parseVersion t).map fun v => (t, v)).Pairwise
      fun x y : String × (Nat × Nat × Nat) => x.2 = y.2 → x.1 < y.1 := by
    refine hfst.imp ?_
    intro a b h _
    exact h
  have hsort := pairwise_insertionSort (r := fun a b => semverLe a b = true)
    (R := fun x y : String × (Nat × Nat × Nat) => x.2 = y.2 → x.1 < y.1) ?_ hR
  · exact hsort.sublist (List.take_sublist 2 _)
  · intro x y hxy heq
    exfalso
    have hvl : VerLt x.2 y.2 := by
      by_contra hn
      exact hxy (semverLe_iff.2 hn)
    rw [heq] at hvl
    rcases verLt_total x.2 x.2 with hn | hn <;> exact hn hvl

theorem c9_witness :
    (semver ["a1.0.0", "b1.0.0"]).Pairwise fun a b => a.2 = b.2 → a.1 < b.1 :=
  c9_ties_deterministic ["a1.0.0", "b1.0.0"] (by
    refine List.Pairwise.cons ?_ ?_
    · intro b hb
      rw [List.mem_singleton] at hb
      subst hb
      exact String.lt_iff_toList_lt.mpr (by decide)
    · simp)

/-- C10: a `revert`-prefixed subject gets sort key 7 — the same lowest
key as unrecognized subjects, since `revert` is absent from the priority
table — so in the sorted list every key-7 entry follows only key-7
entries, reverts keep their original interleaving with unrecognized
commits, yet the classifier does recognize `revert` and the heading table
renders it as "Reverts". -/
theorem c10_revert_sorted_last :
    (∀ s : String, startsWith s "revert" = true → sortKey s = 7) ∧
    (∀ l : List (String × String),
      (sort_commits l).Pairwise fun a b => sortKey a.2 = 7 → sortKey b.2 = 7) ∧
    (∀ l : List (String × String),
      (sort_commits l).filter (fun c => sortKey c.2 == 7) =
        l.filter fun c => sortKey c.2 == 7) ∧
    (∀ (s : String) (c : Classified), startsWith s "revert" = true →
      classify s = some c → c.type = "revert") ∧
    typeHeading "revert" = some "Reverts" := by
  refine ⟨fun s h => sortKey_revert h, ?_, fun l => sort_commits_filter_key l 7,
    fun s c h1 h2 => classify_revert h1 h2, by decide⟩
  intro l
  exact (sort_commits_pairwise_key l).imp fun hab ha =>
    Nat.le_antisymm (sortKey_le_seven _) (ha ▸ hab)

theorem c10_witness :
    sortKey "revert: undo" = 7 ∧
      Classified.type ⟨"revert", none, " undo"⟩ = "revert" :=
  ⟨c10_revert_sorted_last.1 "revert: undo" (by decide),
    c10_revert_sorted_last.2.2.2.1 "revert: undo" ⟨"revert", none, " undo"⟩
      (by decide) (by decide)⟩

end Version
